import Mathlib

/-!
Verification of the weekly meal-plan nutrition module
(`src/components/MealPlanManager.tsx`).

The embedding follows the source:
* `Day` is the seven-element enumeration of `z.enum([...])` / `DAYS`.
* `MealCandidate` is a raw form submission (day still a string);
  `Meal` is a parsed, typed record (`type Meal = z.infer<typeof mealFormSchema>`).
* `validateMeal` embeds `mealFormSchema`: zod checks each field
  independently (enum membership, `string().min(2)`, `number().min(0)`
  on each macro) and collects one issue per failing field.
* `WeeklyMeals`, `initialMeals`, `addMeal` embed the `useState` ledger
  and `onSubmit` (spread the record map, append to the submitted day).
* `calculateTotals` embeds the aggregator: `reduce` sums of the three
  macros, Atwater calories `p*4 + c*4 + f*9`, and the percentages
  `(e / calories) * 100` guarded by `isNaN(x) ? 0 : x`.  JavaScript
  numbers are modelled as exact rationals; division is modelled by
  `JsVal` so that `0/0 = NaN`, `x/0 = ±Infinity` keep their JS meaning.
-/

namespace MealPlan

inductive Day where
  | monday
  | tuesday
  | wednesday
  | thursday
  | friday
  | saturday
  | sunday
deriving DecidableEq

/-- The `DAYS` constant of the source: the seven day identifiers, in order. -/
def DAYS : List String :=
  ["monday", "tuesday", "wednesday", "thursday", "friday", "saturday", "sunday"]

/-- Parsing a day string, as `z.enum` does: one of the seven literals or failure. -/
def parseDay : String → Option Day
  | "monday" => some Day.monday
  | "tuesday" => some Day.tuesday
  | "wednesday" => some Day.wednesday
  | "thursday" => some Day.thursday
  | "friday" => some Day.friday
  | "saturday" => some Day.saturday
  | "sunday" => some Day.sunday
  | _ => none

/-- A parsed meal record (`type Meal = z.infer<typeof mealFormSchema>`). -/
structure Meal where
  day : Day
  name : String
  protein : ℚ
  carbs : ℚ
  fat : ℚ
deriving DecidableEq

/-- A raw candidate submission before `mealFormSchema` has run: the day is
still an arbitrary string and the macros arbitrary numbers. -/
structure MealCandidate where
  day : String
  name : String
  protein : ℚ
  carbs : ℚ
  fat : ℚ
deriving DecidableEq

/-- The validation-error taxonomy of the schema: an invalid day enum value,
a name under 2 characters (`string().min(2)`), or a negative macro
(`number().min(0)`), tagged with the offending field. -/
inductive ValidationError where
  | InvalidDay
  | NameTooShort
  | NegativeMacro (field : String)
deriving DecidableEq

/-- `mealFormSchema` checking: each field is validated independently and
every failing field contributes its own issue, in field order, exactly as
zod reports object-schema issues. -/
def validateMeal (c : MealCandidate) : List ValidationError :=
  (if (parseDay c.day).isNone then [ValidationError.InvalidDay] else [])
    ++ (if c.name.length < 2 then [ValidationError.NameTooShort] else [])
    ++ (if c.protein < 0 then [ValidationError.NegativeMacro "protein"] else [])
    ++ (if c.carbs < 0 then [ValidationError.NegativeMacro "carbs"] else [])
    ++ (if c.fat < 0 then [ValidationError.NegativeMacro "fat"] else [])

/-- `mealFormSchema.parse`: on success, the typed `Meal`; on failure, the
per-field issue list.  Pure: it takes only the candidate, never the ledger. -/
def mealFormSchemaParse (c : MealCandidate) : Except (List ValidationError) Meal :=
  match parseDay c.day with
  | none => Except.error (validateMeal c)
  | some d =>
      let es := validateMeal c
      if es = [] then Except.ok ⟨d, c.name, c.protein, c.carbs, c.fat⟩
      else Except.error es

/-- The ledger state: `Record<Meal['day'], Meal[]>`. -/
def WeeklyMeals := Day → List Meal

/-- The initial `useState` value: every one of the seven days maps to `[]`. -/
def initialMeals : WeeklyMeals := fun _ => []

/-- `onSubmit`: spread the previous record and append the new meal to the
list stored under its day — the only mutation of the ledger in the source. -/
def addMeal (r : Meal) (w : WeeklyMeals) : WeeklyMeals :=
  fun d => if d = r.day then w r.day ++ [r] else w d

/-- Reading the ledger (`meals[day]`, as used by `calculateTotals` and the
table rendering). -/
def mealsFor (w : WeeklyMeals) (d : Day) : List Meal := w d

/-- A JavaScript number as produced by the aggregator's division: a finite
rational, an infinity, or NaN. -/
inductive JsVal where
  | num (q : ℚ)
  | posInf
  | negInf
  | nan
deriving DecidableEq

/-- JS division `a / b` on (exact-rational) numbers: `0/0` is NaN and
`x/0` for `x ≠ 0` is a signed infinity. -/
def jsDiv (a b : ℚ) : JsVal :=
  if b = 0 then
    if a = 0 then JsVal.nan
    else if 0 < a then JsVal.posInf
    else JsVal.negInf
  else JsVal.num (a / b)

/-- JS multiplication of a division result by a finite constant:
NaN propagates, an infinity keeps or flips its sign (and `Inf * 0` is NaN). -/
def jsMul (v : JsVal) (k : ℚ) : JsVal :=
  match v with
  | JsVal.nan => JsVal.nan
  | JsVal.posInf => if k = 0 then JsVal.nan else if 0 < k then JsVal.posInf else JsVal.negInf
  | JsVal.negInf => if k = 0 then JsVal.nan else if 0 < k then JsVal.negInf else JsVal.posInf
  | JsVal.num q => JsVal.num (q * k)

/-- `isNaN` of the source's guard. -/
def JsVal.isNaN : JsVal → Bool
  | JsVal.nan => true
  | _ => false

/-- The percentage record set by `setMacroPercentages`. -/
structure MacroPercentages where
  protein : JsVal
  carbs : JsVal
  fat : JsVal
deriving DecidableEq

/-- The derived daily summary: `currentCalories` plus the three percentages. -/
structure DailySummary where
  calories : ℚ
  percentages : MacroPercentages
deriving DecidableEq

/-- `dayMeals.reduce((sum, meal) => sum + meal.protein, 0)`. -/
def totalProtein (ms : List Meal) : ℚ :=
  ms.foldl (fun s m => s + m.protein) 0

/-- `dayMeals.reduce((sum, meal) => sum + meal.carbs, 0)`. -/
def totalCarbs (ms : List Meal) : ℚ :=
  ms.foldl (fun s m => s + m.carbs) 0

/-- `dayMeals.reduce((sum, meal) => sum + meal.fat, 0)`. -/
def totalFat (ms : List Meal) : ℚ :=
  ms.foldl (fun s m => s + m.fat) 0

/-- `totalProtein * 4 + totalCarbs * 4 + totalFat * 9`. -/
def totalCalories (ms : List Meal) : ℚ :=
  totalProtein ms * 4 + totalCarbs ms * 4 + totalFat ms * 9

/-- One percentage before the guard: `(energy / totalCalories) * 100`. -/
def rawPct (energy cal : ℚ) : JsVal :=
  jsMul (jsDiv energy cal) 100

/-- The guard applied to each percentage: `isNaN(x) ? 0 : x`. -/
def normPct (v : JsVal) : JsVal :=
  if v.isNaN then JsVal.num 0 else v

/-- `calculateTotals` over the meal list of the selected day: total
calories and the three guarded macro percentages. -/
def calculateTotals (ms : List Meal) : DailySummary :=
  let cal := totalCalories ms
  { calories := cal
    percentages :=
      { protein := normPct (rawPct (totalProtein ms * 4) cal)
        carbs := normPct (rawPct (totalCarbs ms * 4) cal)
        fat := normPct (rawPct (totalFat ms * 9) cal) } }

/-- A stored record satisfying the schema's rules (the day is one of the
seven enumeration values by the very type `Day`). -/
def ValidMeal (m : Meal) : Prop :=
  2 ≤ m.name.length ∧ 0 ≤ m.protein ∧ 0 ≤ m.carbs ∧ 0 ≤ m.fat

/-- Ledger states reachable by the public flow: start from the initial
all-empty state; each step runs the schema on a raw candidate and, on
success, appends the parsed record via `addMeal`. -/
inductive Reachable : WeeklyMeals → Prop where
  | init : Reachable initialMeals
  | step (c : MealCandidate) (m : Meal) (w : WeeklyMeals) :
      Reachable w → mealFormSchemaParse c = Except.ok m → Reachable (addMeal m w)

/-- The reduce-with-initial-accumulator sums equal plain list sums. -/
lemma foldl_add_eq_sum (f : Meal → ℚ) :
    ∀ (ms : List Meal) (s : ℚ), ms.foldl (fun a m => a + f m) s = s + (ms.map f).sum := by
  intro ms
  induction ms with
  | nil => intro s; simp
  | cons m t ih => intro s; simp [ih, add_assoc]

lemma totalProtein_eq_sum (ms : List Meal) :
    totalProtein ms = (ms.map Meal.protein).sum := by
  simpa using foldl_add_eq_sum Meal.protein ms 0

lemma totalCarbs_eq_sum (ms : List Meal) :
    totalCarbs ms = (ms.map Meal.carbs).sum := by
  simpa using foldl_add_eq_sum Meal.carbs ms 0

lemma totalFat_eq_sum (ms : List Meal) :
    totalFat ms = (ms.map Meal.fat).sum := by
  simpa using foldl_add_eq_sum Meal.fat ms 0

/-- Claim C1: for every meal list in which each record has protein, carbs
and fat all zero (the empty list included), calculateTotals returns total
calories 0 and all three percentages exactly the number 0 — the 0/0 NaN is
normalized away and no infinity or fault arises. -/
theorem calculateTotals_allZero (ms : List Meal)
    (h : ∀ m ∈ ms, m.protein = 0 ∧ m.carbs = 0 ∧ m.fat = 0) :
    calculateTotals ms =
      { calories := 0
        percentages :=
          { protein := JsVal.num 0, carbs := JsVal.num 0, fat := JsVal.num 0 } } := by
  have hp : totalProtein ms = 0 := by
    rw [totalProtein_eq_sum]
    exact List.sum_eq_zero (by intro q hq; rcases List.mem_map.mp hq with ⟨m, hm, rfl⟩; exact (h m hm).1)
  have hc : totalCarbs ms = 0 := by
    rw [totalCarbs_eq_sum]
    exact List.sum_eq_zero (by intro q hq; rcases List.mem_map.mp hq with ⟨m, hm, rfl⟩; exact (h m hm).2.1)
  have hf : totalFat ms = 0 := by
    rw [totalFat_eq_sum]
    exact List.sum_eq_zero (by intro q hq; rcases List.mem_map.mp hq with ⟨m, hm, rfl⟩; exact (h m hm).2.2)
  have hcal : totalCalories ms = 0 := by
    simp [totalCalories, hp, hc, hf]
  simp [calculateTotals, hcal, hp, hc, hf, rawPct, jsDiv, jsMul, normPct, JsVal.isNaN]

/-- Claim C1 witness: the empty list and a concrete all-zero meal both hit
the zero-calorie case and yield the all-zero summary. -/
theorem calculateTotals_allZero_witness :
    calculateTotals [⟨Day.monday, "AB", 0, 0, 0⟩] =
      { calories := 0
        percentages :=
          { protein := JsVal.num 0, carbs := JsVal.num 0, fat := JsVal.num 0 } } :=
  calculateTotals_allZero [⟨Day.monday, "AB", 0, 0, 0⟩] (by decide)

/-- Claim C2: whenever the macro totals are non-negative with at least one
strictly positive, the three percentages are finite numbers summing to
exactly 100 over exact rational arithmetic. -/
theorem percentages_sum_to_100 (ms : List Meal)
    (hp : 0 ≤ totalProtein ms) (hc : 0 ≤ totalCarbs ms) (hf : 0 ≤ totalFat ms)
    (hpos : 0 < totalProtein ms ∨ 0 < totalCarbs ms ∨ 0 < totalFat ms) :
    ∃ a b c : ℚ,
      (calculateTotals ms).percentages =
        { protein := JsVal.num a, carbs := JsVal.num b, fat := JsVal.num c } ∧
      a + b + c = 100 := by
  have hcal : 0 < totalCalories ms := by
    unfold totalCalories
    rcases hpos with h | h | h <;> nlinarith
  have hcal0 : totalCalories ms ≠ 0 := ne_of_gt hcal
  refine ⟨totalProtein ms * 4 / totalCalories ms * 100,
          totalCarbs ms * 4 / totalCalories ms * 100,
          totalFat ms * 9 / totalCalories ms * 100, ?_, ?_⟩
  · simp [calculateTotals, rawPct, jsDiv, jsMul, normPct, JsVal.isNaN, hcal0]
  · field_simp
    unfold totalCalories
    ring

/-- Claim C2 witness: a single meal with macros (50, 50, 20) has positive
totals and its percentages are finite numbers summing to exactly 100. -/
theorem percentages_sum_to_100_witness :
    (0 ≤ totalProtein [⟨Day.monday, "AB", 50, 50, 20⟩] ∧
      0 < totalProtein [⟨Day.monday, "AB", 50, 50, 20⟩]) ∧
    (∃ a b c : ℚ,
      (calculateTotals [⟨Day.monday, "AB", 50, 50, 20⟩]).percentages =
        { protein := JsVal.num a, carbs := JsVal.num b, fat := JsVal.num c } ∧
      a + b + c = 100) :=
  ⟨⟨by norm_num [totalProtein], by norm_num [totalProtein]⟩,
    percentages_sum_to_100 [⟨Day.monday, "AB", 50, 50, 20⟩]
      (by norm_num [totalProtein]) (by norm_num [totalCarbs]) (by norm_num [totalFat])
      (Or.inl (by norm_num [totalProtein]))⟩

/-- Claim C3: total calories are always the protein sum times 4 plus the
carb sum times 4 plus the fat sum times 9; on the single meal
(protein 50, carbs 50, fat 20) the summary is 580 calories with
percentages 200/580*100, 200/580*100 and 180/580*100. -/
theorem calories_atwater :
    (∀ ms : List Meal,
      (calculateTotals ms).calories =
        (ms.map Meal.protein).sum * 4 + (ms.map Meal.carbs).sum * 4 + (ms.map Meal.fat).sum * 9) ∧
    calculateTotals [⟨Day.monday, "AB", 50, 50, 20⟩] =
      { calories := 580
        percentages :=
          { protein := JsVal.num (200 / 580 * 100)
            carbs := JsVal.num (200 / 580 * 100)
            fat := JsVal.num (180 / 580 * 100) } } := by
  constructor
  · intro ms
    simp [calculateTotals, totalCalories, totalProtein_eq_sum, totalCarbs_eq_sum, totalFat_eq_sum]
  · norm_num [calculateTotals, totalCalories, totalProtein, totalCarbs, totalFat,
      rawPct, jsDiv, jsMul, normPct, JsVal.isNaN]

/-- Folding addMeal over records all targeting day d appends them, in call
order, to whatever d already stored. -/
lemma addMeal_foldl (d : Day) :
    ∀ (rs : List Meal) (w : WeeklyMeals), (∀ r ∈ rs, r.day = d) →
      mealsFor (rs.foldl (fun acc r => addMeal r acc) w) d = mealsFor w d ++ rs := by
  intro rs
  induction rs with
  | nil => intro w _; simp [mealsFor]
  | cons r t ih =>
      intro w h
      have hr : r.day = d := h r (by simp)
      have ht : ∀ x ∈ t, x.day = d := fun x hx => h x (by simp [hx])
      simp only [List.foldl_cons]
      rw [ih (addMeal r w) ht]
      simp [mealsFor, addMeal, hr]

/-- Claim C4: starting from the all-empty initial ledger, N valid addMeal
calls all targeting day d leave exactly those N records under d, in call
order; the fold over addMeal is the only mutation the embedding has, as
onSubmit is the only state update in the source. -/
theorem addMeal_appendOnly (rs : List Meal) (d : Day) (h : ∀ r ∈ rs, r.day = d) :
    mealsFor (rs.foldl (fun acc r => addMeal r acc) initialMeals) d = rs ∧
    (mealsFor (rs.foldl (fun acc r => addMeal r acc) initialMeals) d).length = rs.length := by
  have key : mealsFor (rs.foldl (fun acc r => addMeal r acc) initialMeals) d = rs := by
    rw [addMeal_foldl d rs initialMeals h]
    simp [mealsFor, initialMeals]
  exact ⟨key, by rw [key]⟩

/-- Claim C4 witness: two concrete monday meals added in order are stored
under monday as exactly that two-element list. -/
theorem addMeal_appendOnly_witness :
    (∀ r ∈ [(⟨Day.monday, "AB", 1, 2, 3⟩ : Meal), ⟨Day.monday, "CD", 4, 5, 6⟩], r.day = Day.monday) ∧
    (mealsFor
        ([(⟨Day.monday, "AB", 1, 2, 3⟩ : Meal), ⟨Day.monday, "CD", 4, 5, 6⟩].foldl
          (fun acc r => addMeal r acc) initialMeals) Day.monday =
        [(⟨Day.monday, "AB", 1, 2, 3⟩ : Meal), ⟨Day.monday, "CD", 4, 5, 6⟩] ∧
      (mealsFor
          ([(⟨Day.monday, "AB", 1, 2, 3⟩ : Meal), ⟨Day.monday, "CD", 4, 5, 6⟩].foldl
            (fun acc r => addMeal r acc) initialMeals) Day.monday).length =
        [(⟨Day.monday, "AB", 1, 2, 3⟩ : Meal), ⟨Day.monday, "CD", 4, 5, 6⟩].length) :=
  ⟨by simp,
    addMeal_appendOnly [⟨Day.monday, "AB", 1, 2, 3⟩, ⟨Day.monday, "CD", 4, 5, 6⟩]
      Day.monday (by simp)⟩

/-- A record the schema parse accepts satisfies the stored-record rules. -/
lemma parse_ok_valid (c : MealCandidate) (m : Meal)
    (h : mealFormSchemaParse c = Except.ok m) : ValidMeal m := by
  unfold mealFormSchemaParse at h
  cases hd : parseDay c.day with
  | none => rw [hd] at h; exact absurd h (by simp)
  | some d =>
      rw [hd] at h
      by_cases hes : validateMeal c = []
      · simp only [hes, if_pos] at h
        have hm : (⟨d, c.name, c.protein, c.carbs, c.fat⟩ : Meal) = m := by
          simpa using h
        subst hm
        have h2 := hes
        simp only [validateMeal, List.append_eq_nil, ite_eq_right_iff] at h2
        obtain ⟨⟨⟨⟨_, hname⟩, hprot⟩, hcarb⟩, hfat⟩ := h2
        show 2 ≤ c.name.length ∧ 0 ≤ c.protein ∧ 0 ≤ c.carbs ∧ 0 ≤ c.fat
        refine ⟨?_, ?_, ?_, ?_⟩
        · by_contra hlen
          exact List.cons_ne_nil _ _ (hname (by omega))
        · by_contra hneg
          exact List.cons_ne_nil _ _ (hprot (by simpa using lt_of_not_le hneg))
        · by_contra hneg
          exact List.cons_ne_nil _ _ (hcarb (by simpa using lt_of_not_le hneg))
        · by_contra hneg
          exact List.cons_ne_nil _ _ (hfat (by simpa using lt_of_not_le hneg))
      · simp [hes] at h

/-- Every ledger state reachable by validate-then-add holds only records
meeting the schema rules. -/
lemma reachable_all_valid (w : WeeklyMeals) (hw : Reachable w) :
    ∀ (d : Day) (m : Meal), m ∈ mealsFor w d → ValidMeal m := by
  induction hw with
  | init => intro d m hm; simp [mealsFor, initialMeals] at hm
  | step c m' w' _ hok ih =>
      intro d m hm
      unfold mealsFor addMeal at hm
      by_cases hd : d = m'.day
      · rw [if_pos hd] at hm
        rcases List.mem_append.mp hm with h1 | h1
        · exact ih m'.day m h1
        · have : m = m' := by simpa using h1
          subst this
          exact parse_ok_valid c m hok
      · rw [if_neg hd] at hm
        exact ih d m hm

/-- Claim C5: in every ledger state reachable from the initial empty state
by the public validate-then-addMeal flow, every stored record has a name of
length at least 2 and non-negative protein, carbs and fat (its day is one
of the seven enumeration values by the type Day itself). -/
theorem stored_meals_valid (w : WeeklyMeals) (hw : Reachable w) (d : Day) (m : Meal)
    (hm : m ∈ mealsFor w d) : ValidMeal m :=
  reachable_all_valid w hw d m hm

/-- Claim C5 witness: after one successfully validated submission the
stored record meets the rules. -/
theorem stored_meals_valid_witness :
    ValidMeal ⟨Day.monday, "AB", 1, 2, 3⟩ :=
  stored_meals_valid
    (addMeal ⟨Day.monday, "AB", 1, 2, 3⟩ initialMeals)
    (Reachable.step ⟨"monday", "AB", 1, 2, 3⟩ ⟨Day.monday, "AB", 1, 2, 3⟩ initialMeals
      Reachable.init
      (by norm_num [mealFormSchemaParse, parseDay, validateMeal,
        show ("AB".length = 2) from rfl]))
    Day.monday ⟨Day.monday, "AB", 1, 2, 3⟩
    (by simp [mealsFor, addMeal, initialMeals])

/-- Claim C6: the validator reports NameTooShort exactly when the name has
length under 2; it rejects the name A with NameTooShort and accepts AB with
no error at all. -/
theorem name_min_two :
    (∀ c : MealCandidate, ValidationError.NameTooShort ∈ validateMeal c ↔ c.name.length < 2) ∧
    validateMeal ⟨"monday", "A", 0, 0, 0⟩ = [ValidationError.NameTooShort] ∧
    validateMeal ⟨"monday", "AB", 0, 0, 0⟩ = [] := by
  refine ⟨?_, ?_, ?_⟩
  · intro c
    simp only [validateMeal, List.mem_append]
    split_ifs with h1 h2 h3 h4 h5 <;> simp_all
  · norm_num [validateMeal, parseDay, show ("A".length = 1) from rfl]
  · norm_num [validateMeal, parseDay, show ("AB".length = 2) from rfl]

/-- Claim C7: a strictly negative protein, carbs or fat value is reported
with a NegativeMacro error naming that very field; protein equal to minus
one yields exactly the single error NegativeMacro protein. -/
theorem negative_macro_field :
    (∀ c : MealCandidate,
      (ValidationError.NegativeMacro "protein" ∈ validateMeal c ↔ c.protein < 0) ∧
      (ValidationError.NegativeMacro "carbs" ∈ validateMeal c ↔ c.carbs < 0) ∧
      (ValidationError.NegativeMacro "fat" ∈ validateMeal c ↔ c.fat < 0)) ∧
    validateMeal ⟨"monday", "AB", -1, 0, 0⟩ = [ValidationError.NegativeMacro "protein"] := by
  refine ⟨?_, ?_⟩
  · intro c
    refine ⟨?_, ?_, ?_⟩ <;>
      · simp only [validateMeal, List.mem_append]
        split_ifs with h1 h2 h3 h4 h5 <;> simp_all
  · norm_num [validateMeal, parseDay, show ("AB".length = 2) from rfl]

/-- Claim C8: the validator accepts a candidate exactly when its day parses
as one of the seven enumeration values, its name has length at least 2 and
every macro is non-negative — with no upper bound, so arbitrarily large
macros pass and the parse returns the typed record; as a pure function of
the candidate alone it cannot touch the ledger. -/
theorem validator_accepts :
    (∀ c : MealCandidate,
      validateMeal c = [] ↔
        ((parseDay c.day).isSome ∧ 2 ≤ c.name.length ∧
          0 ≤ c.protein ∧ 0 ≤ c.carbs ∧ 0 ≤ c.fat)) ∧
    validateMeal ⟨"monday", "AB", 1000000000, 1000000000, 1000000000⟩ = [] ∧
    mealFormSchemaParse ⟨"monday", "AB", 1000000000, 1000000000, 1000000000⟩ =
      Except.ok ⟨Day.monday, "AB", 1000000000, 1000000000, 1000000000⟩ := by
  refine ⟨?_, ?_, ?_⟩
  · intro c
    simp only [validateMeal, List.append_eq_nil]
    split_ifs with h1 h2 h3 h4 h5 <;>
      simp_all [Option.isNone_iff_eq_none, Option.isSome_iff_ne_none]
  · norm_num [validateMeal, parseDay, show ("AB".length = 2) from rfl]
  · norm_num [mealFormSchemaParse, parseDay, validateMeal, show ("AB".length = 2) from rfl]

/-- Claim C9: addMeal changes only the sequence stored under the record's
own day; every other day's list is untouched. -/
theorem addMeal_frame (r : Meal) (w : WeeklyMeals) (d : Day) (h : d ≠ r.day) :
    mealsFor (addMeal r w) d = mealsFor w d := by
  simp [mealsFor, addMeal, h]

/-- Claim C9 witness: adding a monday meal leaves tuesday's list unchanged. -/
theorem addMeal_frame_witness :
    mealsFor (addMeal ⟨Day.monday, "AB", 1, 2, 3⟩ initialMeals) Day.tuesday =
      mealsFor initialMeals Day.tuesday :=
  addMeal_frame ⟨Day.monday, "AB", 1, 2, 3⟩ initialMeals Day.tuesday (by decide)

end MealPlan
